import Mathlib

/-!
# Verification of the punched-qubit-chain trajectory engine

Shallow embedding of the quantum-trajectory Monte Carlo simulator of the
`punch_project` repository: Hamiltonian assembly from Pauli-string terms
(qiskit `SparsePauliOp(data, coeffs).to_matrix()`), propagator synthesis
(`expm(-1.0j*H*dt)`), projective measurement with state collapse, the
per-trajectory record loop and the ensemble average.
-/

open Matrix

/-- Single-site operator labels of a Pauli string, as in qiskit
`SparsePauliOp` data strings. -/
inductive Pauli : Type
  | I : Pauli
  | X : Pauli
  | Y : Pauli
  | Z : Pauli
deriving DecidableEq

/-- Entry of the 2×2 matrix of a single-site Pauli operator, rows and
columns indexed by `Bool` (`false` = basis state 0, `true` = basis state 1). -/
def pauliEntry : Pauli → Bool → Bool → ℂ
  | Pauli.I, r, c => if r = c then 1 else 0
  | Pauli.X, r, c => if r = c then 0 else 1
  | Pauli.Y, r, c => if r = c then 0 else (if r then Complex.I else -Complex.I)
  | Pauli.Z, r, c => if r = c then (if r then -1 else 1) else 0

/-- The 2^n × 2^n matrix of one Pauli-string term: the Kronecker product of
the per-site operators, with qubit `k` read off from bit `k` of the basis
index (qiskit little-endian basis-state convention). -/
def termMatrix (n : ℕ) (p : Fin n → Pauli) : Matrix (Fin (2 ^ n)) (Fin (2 ^ n)) ℂ :=
  Matrix.of fun i j =>
    ∏ k : Fin n, pauliEntry (p k) (Nat.testBit i.val k.val) (Nat.testBit j.val k.val)

/-- Assembled Hamiltonian matrix: the coefficient-weighted sum of the term
matrices, as produced by `SparsePauliOp(data, coeffs).to_matrix()`. -/
def hamMatrix (n : ℕ) (terms : List ((Fin n → Pauli) × ℂ)) :
    Matrix (Fin (2 ^ n)) (Fin (2 ^ n)) ℂ :=
  (terms.map fun t => t.2 • termMatrix n t.1).sum

/-- Reading of one character of a qiskit Pauli-string label. -/
def pauliOfChar (c : Char) : Pauli :=
  if c = 'X' then Pauli.X
  else if c = 'Y' then Pauli.Y
  else if c = 'Z' then Pauli.Z
  else Pauli.I

/-- Per-qubit operators of a qiskit label string: character position 0 acts
on qubit `n - 1` (qiskit labels are big-endian). -/
def labelSites (n : ℕ) (s : List Char) : Fin n → Pauli :=
  fun k => pauliOfChar (s.getD (n - 1 - k.val) 'I')

/-- Coupling constant `J_1 = 2.0` of the open-chain notebook. -/
def J1open : ℝ := 2.0

/-- Coupling constant `J_2 = 2.0` of the open-chain notebook. -/
def J2open : ℝ := 2.0

/-- Term list of the open-chain notebook Hamiltonian:
`SparsePauliOp(data = ["XXI", "IZZ"], coeffs = [-J_1/2, -J_2/2])`. -/
noncomputable def openTerms : List ((Fin 3 → Pauli) × ℂ) :=
  [(labelSites 3 "XXI".toList, ((-(J1open / 2) : ℝ) : ℂ)),
   (labelSites 3 "IZZ".toList, ((-(J2open / 2) : ℝ) : ℂ))]

/-- The assembled 8×8 open-chain Hamiltonian matrix. -/
noncomputable def hamOpen : Matrix (Fin (2 ^ 3)) (Fin (2 ^ 3)) ℂ := hamMatrix 3 openTerms

/-- Coupling constant `J_1 = -2.0` of the single-trajectory notebook variant. -/
def J1traj : ℝ := -2.0

/-- Coupling constant `J_2 = -2.0` of the single-trajectory notebook variant. -/
def J2traj : ℝ := -2.0

/-- Term list of the single-trajectory notebook variant:
`SparsePauliOp(data = ["XXI", "IZZ"], coeffs = [J_1/2, J_2/2])` with
`J_1 = J_2 = -2.0`. -/
noncomputable def trajTerms : List ((Fin 3 → Pauli) × ℂ) :=
  [(labelSites 3 "XXI".toList, ((J1traj / 2 : ℝ) : ℂ)),
   (labelSites 3 "IZZ".toList, ((J2traj / 2 : ℝ) : ℂ))]

/-- The assembled 8×8 Hamiltonian of the single-trajectory notebook variant. -/
noncomputable def hamTraj : Matrix (Fin (2 ^ 3)) (Fin (2 ^ 3)) ℂ := hamMatrix 3 trajTerms

lemma pauliEntry_star (p : Pauli) (r c : Bool) :
    star (pauliEntry p c r) = pauliEntry p r c := by
  cases p <;> cases r <;> cases c <;>
    simp [pauliEntry, Complex.conj_I]

/-- Each Pauli-string term matrix is Hermitian. -/
lemma termMatrix_isHermitian (n : ℕ) (p : Fin n → Pauli) :
    (termMatrix n p).IsHermitian := by
  unfold Matrix.IsHermitian
  ext i j
  simp only [conjTranspose_apply, termMatrix, Matrix.of_apply, star_prod]
  exact Finset.prod_congr rfl fun k _ => pauliEntry_star (p k) _ _

/-- The assembled Hamiltonian is Hermitian whenever every coefficient is real. -/
lemma hamMatrix_isHermitian (n : ℕ) (terms : List ((Fin n → Pauli) × ℂ))
    (h : ∀ t ∈ terms, t.2.im = 0) : (hamMatrix n terms).IsHermitian := by
  induction terms with
  | nil =>
      simp [hamMatrix, Matrix.IsHermitian]
  | cons t ts ih =>
      have hts : (hamMatrix n ts).IsHermitian :=
        ih fun u hu => h u (List.mem_cons_of_mem _ hu)
      have hcoeff : star t.2 = t.2 := by
        have him : t.2.im = 0 := h t (List.mem_cons_self _ _)
        apply Complex.ext <;> simp [him]
      have hterm : (t.2 • termMatrix n t.1).IsHermitian := by
        unfold Matrix.IsHermitian
        rw [conjTranspose_smul, termMatrix_isHermitian n t.1, hcoeff]
      have : hamMatrix n (t :: ts) = t.2 • termMatrix n t.1 + hamMatrix n ts := by
        simp [hamMatrix]
      rw [this]
      exact hterm.add hts

/-- C1: for every Hamiltonian term set with real coefficients and per-site
labels from {Identity, X, Y, Z}, one label per site of the n-site register,
the assembled 2^n × 2^n matrix H equals its conjugate transpose elementwise
within 1e-9. -/
theorem assembled_hamiltonian_hermitian (n : ℕ) (terms : List ((Fin n → Pauli) × ℂ))
    (h : ∀ t ∈ terms, t.2.im = 0) (i j : Fin (2 ^ n)) :
    Complex.abs (hamMatrix n terms i j - (hamMatrix n terms)ᴴ i j) ≤ 1e-9 := by
  have hH := hamMatrix_isHermitian n terms h
  rw [hH.eq]
  simp
  norm_num

/-- Witness for C1: the open-chain term set has real coefficients, and the
Hermiticity bound holds at the concrete entry (0, 0). -/
theorem assembled_hamiltonian_hermitian_witness :
    (∀ t ∈ openTerms, t.2.im = 0) ∧
      Complex.abs (hamMatrix 3 openTerms 0 0 - (hamMatrix 3 openTerms)ᴴ 0 0) ≤ 1e-9 := by
  have hreal : ∀ t ∈ openTerms, t.2.im = 0 := by
    intro t ht
    simp only [openTerms, List.mem_cons, List.mem_singleton] at ht
    rcases ht with h1 | h2 | h3
    · rw [h1]; simp
    · rw [h2]; simp
    · exact absurd h3 (by simp)
  exact ⟨hreal, assembled_hamiltonian_hermitian 3 openTerms hreal 0 0⟩

/-- C10: the two experiment variants assemble the same Hamiltonian: the
construction with J_1 = J_2 = 2.0 and coefficients [-J_1/2, -J_2/2] and the
construction with J_1 = J_2 = -2.0 and coefficients [J_1/2, J_2/2], both over
labels ["XXI", "IZZ"], produce the same 8×8 complex matrix. -/
theorem ham_variants_agree : hamOpen = hamTraj := by
  have hterms : openTerms = trajTerms := by
    unfold openTerms trajTerms J1open J2open J1traj J2traj
    norm_num
  rw [hamOpen, hamTraj, hterms]

/-- The open-chain term coefficients -J_1/2, -J_2/2 are real. -/
lemma openTerms_real : ∀ t ∈ openTerms, t.2.im = 0 := by
  intro t ht
  simp only [openTerms, List.mem_cons, List.mem_singleton] at ht
  rcases ht with h1 | h2 | h3
  · rw [h1]; simp
  · rw [h2]; simp
  · exact absurd h3 (by simp)

/-- The concrete open-chain Hamiltonian is Hermitian. -/
lemma hamOpen_isHermitian : hamOpen.IsHermitian :=
  hamMatrix_isHermitian 3 openTerms openTerms_real

/-- Propagator of the notebook: `U_dt = UnitaryGate(expm(-1.0j*H.to_matrix()*dt))`. -/
noncomputable def propagator {d : Type*} [Fintype d] [DecidableEq d]
    (H : Matrix d d ℂ) (dt : ℝ) : Matrix d d ℂ :=
  NormedSpace.exp ℂ ((-Complex.I * (dt : ℂ)) • H)

/-- For Hermitian H the propagator times its conjugate transpose is the
identity, exactly. -/
lemma propagator_mul_conjTranspose {d : Type*} [Fintype d] [DecidableEq d]
    (H : Matrix d d ℂ) (dt : ℝ) (hH : H.IsHermitian) :
    propagator H dt * (propagator H dt)ᴴ = 1 := by
  set A : Matrix d d ℂ := (-Complex.I * (dt : ℂ)) • H with hA
  have hAH : Aᴴ = (Complex.I * (dt : ℂ)) • H := by
    rw [hA, conjTranspose_smul, hH.eq]
    congr 1
    simp [Complex.ext_iff]
  have hsum : A + Aᴴ = 0 := by
    rw [hAH, hA, ← add_smul]
    have : -Complex.I * (dt : ℂ) + Complex.I * (dt : ℂ) = 0 := by ring
    rw [this, zero_smul]
  have hcomm : Commute A Aᴴ := by
    rw [hAH, hA]
    exact ((Commute.refl H).smul_left _).smul_right _
  calc propagator H dt * (propagator H dt)ᴴ
      = NormedSpace.exp ℂ A * NormedSpace.exp ℂ Aᴴ := by
        rw [propagator, Matrix.exp_conjTranspose]
    _ = NormedSpace.exp ℂ (A + Aᴴ) := (Matrix.exp_add_of_commute ℂ A Aᴴ hcomm).symm
    _ = 1 := by rw [hsum, NormedSpace.exp_zero]

/-- For Hermitian H the conjugate transpose of the propagator times the
propagator is the identity, exactly. -/
lemma conjTranspose_mul_propagator {d : Type*} [Fintype d] [DecidableEq d]
    (H : Matrix d d ℂ) (dt : ℝ) (hH : H.IsHermitian) :
    (propagator H dt)ᴴ * propagator H dt = 1 := by
  set A : Matrix d d ℂ := (-Complex.I * (dt : ℂ)) • H with hA
  have hAH : Aᴴ = (Complex.I * (dt : ℂ)) • H := by
    rw [hA, conjTranspose_smul, hH.eq]
    congr 1
    simp [Complex.ext_iff]
  have hsum : Aᴴ + A = 0 := by
    rw [hAH, hA, ← add_smul]
    have : Complex.I * (dt : ℂ) + -Complex.I * (dt : ℂ) = 0 := by ring
    rw [this, zero_smul]
  have hcomm : Commute Aᴴ A := by
    rw [hAH, hA]
    exact ((Commute.refl H).smul_left _).smul_right _
  calc (propagator H dt)ᴴ * propagator H dt
      = NormedSpace.exp ℂ Aᴴ * NormedSpace.exp ℂ A := by
        rw [propagator, Matrix.exp_conjTranspose]
    _ = NormedSpace.exp ℂ (Aᴴ + A) := (Matrix.exp_add_of_commute ℂ Aᴴ A hcomm).symm
    _ = 1 := by rw [hsum, NormedSpace.exp_zero]

/-- C2: for every Hermitian Hamiltonian matrix H and every step duration
dt > 0, the propagator equals exp(-i·H·dt), and U·Uᴴ equals the identity
elementwise within 1e-9. -/
theorem propagator_is_exp_and_unitary (n : ℕ) (H : Matrix (Fin (2 ^ n)) (Fin (2 ^ n)) ℂ)
    (dt : ℝ) (hH : H.IsHermitian) (hdt : 0 < dt) :
    propagator H dt = NormedSpace.exp ℂ ((-Complex.I * (dt : ℂ)) • H) ∧
      ∀ i j : Fin (2 ^ n),
        Complex.abs ((propagator H dt * (propagator H dt)ᴴ) i j -
          (1 : Matrix (Fin (2 ^ n)) (Fin (2 ^ n)) ℂ) i j) ≤ 1e-9 := by
  refine ⟨rfl, fun i j => ?_⟩
  rw [propagator_mul_conjTranspose H dt hH]
  simp
  norm_num

/-- Witness for C2: the concrete open-chain Hamiltonian is Hermitian,
dt = 0.5 is positive, and the conclusion holds there (entry (0,0) shown). -/
theorem propagator_is_exp_and_unitary_witness :
    hamOpen.IsHermitian ∧ (0 : ℝ) < 0.5 ∧
      (propagator hamOpen 0.5 = NormedSpace.exp ℂ ((-Complex.I * ((0.5 : ℝ) : ℂ)) • hamOpen) ∧
        Complex.abs ((propagator hamOpen 0.5 * (propagator hamOpen 0.5)ᴴ) 0 0 -
          (1 : Matrix (Fin (2 ^ 3)) (Fin (2 ^ 3)) ℂ) 0 0) ≤ 1e-9) := by
  have hdt : (0 : ℝ) < 0.5 := by norm_num
  have h := propagator_is_exp_and_unitary 3 hamOpen 0.5 hamOpen_isHermitian hdt
  exact ⟨hamOpen_isHermitian, hdt, h.1, h.2 0 0⟩

/-- A pure state of the n-qubit register: the complex amplitude vector. -/
abbrev StateVec (n : ℕ) : Type := Fin (2 ^ n) → ℂ

/-- The computational basis state with basis index b (|00...0⟩ is index 0). -/
def basisState (n : ℕ) (b : Fin (2 ^ n)) : StateVec n := fun i => if i = b then 1 else 0

/-- Squared Euclidean norm of a state vector. -/
noncomputable def normSqState {n : ℕ} (ψ : StateVec n) : ℝ :=
  ∑ i, Complex.normSq (ψ i)

/-- Euclidean norm of a state vector. -/
noncomputable def stateNorm {n : ℕ} (ψ : StateVec n) : ℝ :=
  Real.sqrt (normSqState ψ)

/-- Modelled from the spec: the rank-2^(n-1) projector P_b for outcome b on
site k, the tensor product of |b⟩⟨b| at site k with the identity elsewhere
(the collapse operator the sampler backend applies; it is not implemented
under src/, which delegates measurement to the qiskit backend). -/
def projSite (n : ℕ) (k : Fin n) (b : Bool) :
    Matrix (Fin (2 ^ n)) (Fin (2 ^ n)) ℂ :=
  Matrix.diagonal fun i => if Nat.testBit i.val k.val = b then 1 else 0

/-- Modelled from the spec: the measurement probability p_b = ⟨ψ|P_b|ψ⟩ for
outcome b at site k. -/
noncomputable def probC (n : ℕ) (k : Fin n) (b : Bool) (ψ : StateVec n) : ℂ :=
  star ψ ⬝ᵥ (projSite n k b).mulVec ψ

/-- Numerical floor below which a measurement outcome counts as degenerate. -/
noncomputable def measFloor : ℝ := 1e-12

/-- Error taxonomy of the measurement sampler. -/
inductive MeasError : Type
  | degenerate : MeasError
deriving DecidableEq

/-- Modelled from the spec: the MeasurementSampler (not implemented under
src/, which delegates to the qiskit backend). Computes p₀ and p₁, selects
outcome 0 when the uniform draw u < p₀ and 1 otherwise, fails with
`DegenerateMeasurementError` when the selected probability is below the
numerical floor, and otherwise collapses to ψ' = P_selected ψ / sqrt(p). -/
noncomputable def measureSite (n : ℕ) (k : Fin n) (ψ : StateVec n) (u : ℝ) :
    Except MeasError (Bool × StateVec n) :=
  if u < (probC n k false ψ).re then
    if (probC n k false ψ).re < measFloor then Except.error MeasError.degenerate
    else Except.ok (false,
      (Real.sqrt ((probC n k false ψ).re))⁻¹ • (projSite n k false).mulVec ψ)
  else
    if (probC n k true ψ).re < measFloor then Except.error MeasError.degenerate
    else Except.ok (true,
      (Real.sqrt ((probC n k true ψ).re))⁻¹ • (projSite n k true).mulVec ψ)

/-- The probability of the outcome the draw u selects. -/
noncomputable def selectedProb (n : ℕ) (k : Fin n) (ψ : StateVec n) (u : ℝ) : ℝ :=
  if u < (probC n k false ψ).re then (probC n k false ψ).re
  else (probC n k true ψ).re

lemma probC_re (n : ℕ) (k : Fin n) (b : Bool) (ψ : StateVec n) :
    (probC n k b ψ).re =
      ∑ i, if Nat.testBit i.val k.val = b then Complex.normSq (ψ i) else 0 := by
  unfold probC projSite
  rw [dotProduct, Complex.re_sum]
  refine Finset.sum_congr rfl fun i _ => ?_
  rw [Matrix.mulVec_diagonal]
  by_cases hbit : Nat.testBit i.val k.val = b
  · simp only [hbit, if_true, one_mul, Pi.star_apply]
    simp [Complex.mul_re, Complex.normSq_apply, mul_comm]
  · simp [hbit]

lemma probC_im (n : ℕ) (k : Fin n) (b : Bool) (ψ : StateVec n) :
    (probC n k b ψ).im = 0 := by
  unfold probC projSite
  rw [dotProduct, Complex.im_sum]
  refine Finset.sum_eq_zero fun i _ => ?_
  rw [Matrix.mulVec_diagonal]
  by_cases hbit : Nat.testBit i.val k.val = b
  · simp only [hbit, if_true, one_mul, Pi.star_apply]
    simp [Complex.mul_im]
    ring
  · simp [hbit]

lemma probC_re_nonneg (n : ℕ) (k : Fin n) (b : Bool) (ψ : StateVec n) :
    0 ≤ (probC n k b ψ).re := by
  rw [probC_re]
  refine Finset.sum_nonneg fun i _ => ?_
  by_cases hbit : Nat.testBit i.val k.val = b <;>
    simp [hbit, Complex.normSq_nonneg]

/-- The two outcome probabilities add up to the squared norm of the state. -/
lemma probC_re_add (n : ℕ) (k : Fin n) (ψ : StateVec n) :
    (probC n k false ψ).re + (probC n k true ψ).re = normSqState ψ := by
  rw [probC_re, probC_re, ← Finset.sum_add_distrib]
  unfold normSqState
  refine Finset.sum_congr rfl fun i _ => ?_
  cases hbit : Nat.testBit i.val k.val <;> simp [hbit]

lemma normSqState_basisState (n : ℕ) (b : Fin (2 ^ n)) :
    normSqState (basisState n b) = 1 := by
  unfold normSqState basisState
  have h : ∀ i : Fin (2 ^ n),
      Complex.normSq (if i = b then (1 : ℂ) else 0) = if i = b then 1 else 0 := by
    intro i
    by_cases hi : i = b <;> simp [hi]
  simp_rw [h]
  simp

lemma stateNorm_basisState (n : ℕ) (b : Fin (2 ^ n)) :
    stateNorm (basisState n b) = 1 := by
  rw [stateNorm, normSqState_basisState, Real.sqrt_one]

/-- C6: for every unit-norm state ψ and every measured site k, the two
measurement probabilities p₀ = ⟨ψ|P₀|ψ⟩ and p₁ = ⟨ψ|P₁|ψ⟩ are real, each
lies in [0, 1], and their sum equals 1 within 1e-9. -/
theorem measurement_probs_valid (n : ℕ) (k : Fin n) (ψ : StateVec n)
    (hψ : stateNorm ψ = 1) :
    (probC n k false ψ).im = 0 ∧ (probC n k true ψ).im = 0 ∧
      (0 ≤ (probC n k false ψ).re ∧ (probC n k false ψ).re ≤ 1) ∧
      (0 ≤ (probC n k true ψ).re ∧ (probC n k true ψ).re ≤ 1) ∧
      |(probC n k false ψ).re + (probC n k true ψ).re - 1| ≤ 1e-9 := by
  have hsq : normSqState ψ = 1 := by
    have := hψ
    rw [stateNorm, Real.sqrt_eq_one] at this
    exact this
  have hadd : (probC n k false ψ).re + (probC n k true ψ).re = 1 := by
    rw [probC_re_add, hsq]
  have h0 := probC_re_nonneg n k false ψ
  have h1 := probC_re_nonneg n k true ψ
  refine ⟨probC_im n k false ψ, probC_im n k true ψ, ⟨h0, ?_⟩, ⟨h1, ?_⟩, ?_⟩
  · nlinarith
  · nlinarith
  · rw [hadd]
    norm_num

/-- Witness for C6 at the concrete state |000⟩ and measured site 2. -/
theorem measurement_probs_valid_witness :
    stateNorm (basisState 3 0) = 1 ∧
      ((probC 3 2 false (basisState 3 0)).im = 0 ∧
        (probC 3 2 true (basisState 3 0)).im = 0 ∧
        (0 ≤ (probC 3 2 false (basisState 3 0)).re ∧
          (probC 3 2 false (basisState 3 0)).re ≤ 1) ∧
        (0 ≤ (probC 3 2 true (basisState 3 0)).re ∧
          (probC 3 2 true (basisState 3 0)).re ≤ 1) ∧
        |(probC 3 2 false (basisState 3 0)).re +
          (probC 3 2 true (basisState 3 0)).re - 1| ≤ 1e-9) :=
  ⟨stateNorm_basisState 3 0,
    measurement_probs_valid 3 2 (basisState 3 0) (stateNorm_basisState 3 0)⟩

/-- Applying a site projector twice is the same as applying it once. -/
lemma projSite_mulVec_idem (n : ℕ) (k : Fin n) (b : Bool) (ψ : StateVec n) :
    (projSite n k b).mulVec ((projSite n k b).mulVec ψ) =
      (projSite n k b).mulVec ψ := by
  funext i
  unfold projSite
  rw [Matrix.mulVec_diagonal, Matrix.mulVec_diagonal]
  by_cases hbit : Nat.testBit i.val k.val = b <;> simp [hbit]

/-- C7: whenever the measurement succeeds with outcome b (so the selected
probability cleared the numerical floor), the collapsed state ψ' =
P_b ψ / sqrt(p_b) is a +1 eigenvector of the projector: P_b ψ' = ψ'
elementwise within 1e-9. -/
theorem collapsed_state_eigenvector (n : ℕ) (k : Fin n) (ψ : StateVec n) (u : ℝ)
    (b : Bool) (ψ' : StateVec n)
    (h : measureSite n k ψ u = Except.ok (b, ψ')) (i : Fin (2 ^ n)) :
    Complex.abs (((projSite n k b).mulVec ψ' - ψ') i) ≤ 1e-9 := by
  have hfix : (projSite n k b).mulVec ψ' = ψ' := by
    unfold measureSite at h
    split_ifs at h with h1 h2 h3
    · simp only [Except.ok.injEq, Prod.mk.injEq] at h
      obtain ⟨hb, hψ⟩ := h
      subst hb
      rw [← hψ, Matrix.mulVec_smul, projSite_mulVec_idem]
    · simp only [Except.ok.injEq, Prod.mk.injEq] at h
      obtain ⟨hb, hψ⟩ := h
      subst hb
      rw [← hψ, Matrix.mulVec_smul, projSite_mulVec_idem]
  rw [hfix]
  simp
  norm_num

/-- The collapsed state produced by measuring |000⟩ at site 2 with draw 1/2. -/
noncomputable def demoCollapsed : StateVec 3 :=
  (Real.sqrt ((probC 3 2 false (basisState 3 0)).re))⁻¹ •
    (projSite 3 2 false).mulVec (basisState 3 0)

/-- Outcome probability on a computational basis state: 1 when the site bit
matches the outcome, 0 otherwise. -/
lemma probC_basisState (n : ℕ) (k : Fin n) (b : Bool) (c : Fin (2 ^ n)) :
    (probC n k b (basisState n c)).re =
      if Nat.testBit c.val k.val = b then 1 else 0 := by
  rw [probC_re]
  rw [Finset.sum_eq_single c]
  · unfold basisState
    by_cases hbit : Nat.testBit c.val k.val = b <;> simp [hbit]
  · intro j _ hj
    unfold basisState
    by_cases hbit : Nat.testBit j.val k.val = b <;> simp [hbit, hj]
  · intro hc
    exact absurd (Finset.mem_univ c) hc

/-- Concrete evaluation: measuring |000⟩ at site 2 with draw 1/2 succeeds
with outcome 0. -/
lemma measureSite_basis_eval :
    measureSite 3 2 (basisState 3 0) (1 / 2) = Except.ok (false, demoCollapsed) := by
  have hp0 : (probC 3 2 false (basisState 3 0)).re = 1 := by
    rw [probC_basisState]
    norm_num
  unfold measureSite demoCollapsed
  rw [hp0]
  rw [if_pos (by norm_num), if_neg (by rw [measFloor]; norm_num)]

/-- Witness for C7: the concrete successful measurement above, and the
eigenvector bound at entry 0 of the collapsed state. -/
theorem collapsed_state_eigenvector_witness :
    measureSite 3 2 (basisState 3 0) (1 / 2) = Except.ok (false, demoCollapsed) ∧
      Complex.abs (((projSite 3 2 false).mulVec demoCollapsed - demoCollapsed) 0) ≤ 1e-9 :=
  ⟨measureSite_basis_eval,
    collapsed_state_eigenvector 3 2 (basisState 3 0) (1 / 2) false demoCollapsed
      measureSite_basis_eval 0⟩

/-- C9: the measurement fails with DegenerateMeasurementError exactly when
the probability of the outcome selected by the draw is below the numerical
floor 1e-12; an error result produces no collapsed state. -/
theorem measure_degenerate_iff (n : ℕ) (k : Fin n) (ψ : StateVec n) (u : ℝ) :
    (measureSite n k ψ u = Except.error MeasError.degenerate ↔
      selectedProb n k ψ u < measFloor) ∧
      ∀ b ψ', measureSite n k ψ u = Except.error MeasError.degenerate →
        measureSite n k ψ u ≠ Except.ok (b, ψ') := by
  constructor
  · unfold measureSite selectedProb
    split_ifs with h1 h2 h3 <;> simp_all
  · intro b ψ' herr hok
    rw [herr] at hok
    exact Except.noConfusion hok

lemma normSqState_eq_dot {n : ℕ} (ψ : StateVec n) :
    normSqState ψ = (star ψ ⬝ᵥ ψ).re := by
  unfold normSqState
  rw [dotProduct, Complex.re_sum]
  refine Finset.sum_congr rfl fun i _ => ?_
  simp [Complex.mul_re, Complex.normSq_apply, mul_comm]

/-- Multiplication by a matrix with UᴴU = 1 preserves the squared norm. -/
lemma normSqState_mulVec_unitary {n : ℕ} (U : Matrix (Fin (2 ^ n)) (Fin (2 ^ n)) ℂ)
    (hU : Uᴴ * U = 1) (ψ : StateVec n) :
    normSqState (U.mulVec ψ) = normSqState ψ := by
  rw [normSqState_eq_dot, normSqState_eq_dot]
  congr 1
  rw [Matrix.star_mulVec, Matrix.dotProduct_mulVec, Matrix.vecMul_vecMul, hU,
    Matrix.vecMul_one]

lemma normSqState_smul_real {n : ℕ} (r : ℝ) (ψ : StateVec n) :
    normSqState (r • ψ) = r ^ 2 * normSqState ψ := by
  unfold normSqState
  rw [Finset.mul_sum]
  refine Finset.sum_congr rfl fun i _ => ?_
  have : (r • ψ) i = (r : ℂ) * ψ i := by
    simp [Complex.real_smul]
  rw [this, Complex.normSq_mul, Complex.normSq_ofReal]
  ring

/-- The squared norm of the projected state is the outcome probability. -/
lemma normSqState_proj (n : ℕ) (k : Fin n) (b : Bool) (ψ : StateVec n) :
    normSqState ((projSite n k b).mulVec ψ) = (probC n k b ψ).re := by
  rw [probC_re]
  unfold normSqState projSite
  refine Finset.sum_congr rfl fun i _ => ?_
  rw [Matrix.mulVec_diagonal]
  by_cases hbit : Nat.testBit i.val k.val = b <;> simp [hbit]

/-- A successful measurement leaves the state with squared norm exactly 1. -/
lemma measureSite_ok_normSq (n : ℕ) (k : Fin n) (ψ : StateVec n) (u : ℝ)
    (b : Bool) (ψ' : StateVec n)
    (h : measureSite n k ψ u = Except.ok (b, ψ')) : normSqState ψ' = 1 := by
  have floor_pos : (0 : ℝ) < measFloor := by rw [measFloor]; norm_num
  unfold measureSite at h
  split_ifs at h with h1 h2 h3 <;>
    simp only [Except.ok.injEq, Prod.mk.injEq] at h
  · obtain ⟨hb, hψ⟩ := h
    have hp : measFloor ≤ (probC n k false ψ).re := le_of_not_lt h2
    have hppos : 0 < (probC n k false ψ).re := lt_of_lt_of_le floor_pos hp
    rw [← hψ, normSqState_smul_real, normSqState_proj, inv_pow,
      Real.sq_sqrt (le_of_lt hppos), inv_mul_cancel₀ (ne_of_gt hppos)]
  · obtain ⟨hb, hψ⟩ := h
    have hp : measFloor ≤ (probC n k true ψ).re := le_of_not_lt h3
    have hppos : 0 < (probC n k true ψ).re := lt_of_lt_of_le floor_pos hp
    rw [← hψ, normSqState_smul_real, normSqState_proj, inv_pow,
      Real.sq_sqrt (le_of_lt hppos), inv_mul_cancel₀ (ne_of_gt hppos)]

/-- One operation inside a trajectory step: apply the propagator, or measure
the designated site with the next uniform draw u. -/
inductive TrajOp : Type
  | evolve : TrajOp
  | measureAt : ℝ → TrajOp

/-- Apply a sequence of evolve/measure operations to a state; a degenerate
measurement aborts the run (spec default: abort). -/
noncomputable def runOps (n : ℕ) (U : Matrix (Fin (2 ^ n)) (Fin (2 ^ n)) ℂ)
    (k : Fin n) : List TrajOp → StateVec n → Except MeasError (StateVec n)
  | [], ψ => Except.ok ψ
  | TrajOp.evolve :: ops, ψ => runOps n U k ops (U.mulVec ψ)
  | TrajOp.measureAt u :: ops, ψ =>
      match measureSite n k ψ u with
      | Except.error e => Except.error e
      | Except.ok (_, ψ') => runOps n U k ops ψ'

/-- The squared norm 1 is invariant under every successful evolve/measure
sequence. -/
lemma runOps_ok_normSq (n : ℕ) (U : Matrix (Fin (2 ^ n)) (Fin (2 ^ n)) ℂ)
    (hU : Uᴴ * U = 1) (k : Fin n) (ops : List TrajOp) (ψ φ : StateVec n)
    (hψ : normSqState ψ = 1) (h : runOps n U k ops ψ = Except.ok φ) :
    normSqState φ = 1 := by
  induction ops generalizing ψ with
  | nil =>
      unfold runOps at h
      simp only [Except.ok.injEq] at h
      rw [← h]
      exact hψ
  | cons op ops ih =>
      cases op with
      | evolve =>
          unfold runOps at h
          exact ih (U.mulVec ψ) (by rw [normSqState_mulVec_unitary U hU ψ]; exact hψ) h
      | measureAt u =>
          unfold runOps at h
          cases hm : measureSite n k ψ u with
          | error e => rw [hm] at h; exact Except.noConfusion h
          | ok r =>
              rw [hm] at h
              exact ih r.2 (measureSite_ok_normSq n k ψ u r.1 r.2 (by rw [hm])) h

/-- C5: a state vector that starts at a computational basis state keeps
Euclidean norm 1 (within 1e-9) after every finite sequence of propagator
applications and successful projective measurements. -/
theorem state_norm_invariant (n : ℕ) (H : Matrix (Fin (2 ^ n)) (Fin (2 ^ n)) ℂ)
    (dt : ℝ) (hH : H.IsHermitian) (k : Fin n) (b0 : Fin (2 ^ n))
    (ops : List TrajOp) (ψ : StateVec n)
    (h : runOps n (propagator H dt) k ops (basisState n b0) = Except.ok ψ) :
    |stateNorm ψ - 1| ≤ 1e-9 := by
  have h1 : normSqState ψ = 1 :=
    runOps_ok_normSq n (propagator H dt) (conjTranspose_mul_propagator H dt hH)
      k ops (basisState n b0) ψ (normSqState_basisState n b0) h
  rw [stateNorm, h1, Real.sqrt_one]
  simp
  norm_num

/-- Witness for C5: the empty operation sequence starting from |000⟩ with
the concrete open-chain propagator. -/
theorem state_norm_invariant_witness :
    hamOpen.IsHermitian ∧
      runOps 3 (propagator hamOpen 0.5) 2 [] (basisState 3 0) =
        Except.ok (basisState 3 0) ∧
      |stateNorm (basisState 3 0) - 1| ≤ 1e-9 :=
  ⟨hamOpen_isHermitian, rfl,
    state_norm_invariant 3 hamOpen 0.5 hamOpen_isHermitian 2 0 [] (basisState 3 0) rfl⟩

/-- Expectation value of the observable H on a state, as the estimator
records it: Re ⟨ψ|H|ψ⟩. -/
noncomputable def expval (n : ℕ) (H : Matrix (Fin (2 ^ n)) (Fin (2 ^ n)) ℂ)
    (ψ : StateVec n) : ℝ :=
  (star ψ ⬝ᵥ H.mulVec ψ).re

/-- One trajectory of the notebook loop: at each step record ⟨H⟩ on the
current state, apply the propagator, then measure the designated site with
the next uniform draw. A degenerate measurement aborts the trajectory,
keeping the records already made. Returns the record list and the error,
if any. -/
noncomputable def runTrajectory (n : ℕ) (H U : Matrix (Fin (2 ^ n)) (Fin (2 ^ n)) ℂ)
    (k : Fin n) (u : ℕ → ℝ) : ℕ → StateVec n → List ℝ × Option MeasError
  | 0, _ => ([], none)
  | (N + 1), ψ =>
      let e := expval n H ψ
      match measureSite n k (U.mulVec ψ) (u 0) with
      | Except.error err => ([e], some err)
      | Except.ok (_, ψ') =>
          let rest := runTrajectory n H U k (fun t => u (t + 1)) N ψ'
          (e :: rest.1, rest.2)

/-- C3: in the concrete scenario n = 3, terms [("XXI", -1.0), ("IZZ", -1.0)],
dt = 0.5, initial state |000⟩, N = 1, M = 1 and any random stream, the
single recorded expectation value equals ⟨000|H|000⟩ computed directly from
the assembled H matrix, within 1e-9: the observable is recorded before any
evolution or measurement of the step. -/
theorem single_step_records_initial_expectation (u : ℕ → ℝ) :
    (runTrajectory 3 hamOpen (propagator hamOpen 0.5) 2 u 1 (basisState 3 0)).1.length = 1 ∧
      ∀ e ∈ (runTrajectory 3 hamOpen (propagator hamOpen 0.5) 2 u 1 (basisState 3 0)).1,
        |e - (star (basisState 3 0) ⬝ᵥ hamOpen.mulVec (basisState 3 0)).re| ≤ 1e-9 := by
  have hrec : (runTrajectory 3 hamOpen (propagator hamOpen 0.5) 2 u 1 (basisState 3 0)).1 =
      [expval 3 hamOpen (basisState 3 0)] := by
    unfold runTrajectory
    cases hm : measureSite 3 2 ((propagator hamOpen 0.5).mulVec (basisState 3 0)) (u 0) with
    | error e => simp [hm]
    | ok r =>
        simp only [hm]
        unfold runTrajectory
        simp
  rw [hrec]
  refine ⟨rfl, fun e he => ?_⟩
  simp only [List.mem_singleton] at he
  rw [he]
  unfold expval
  simp
  norm_num

/-- Running per-step sums of the ensemble loop: starting from all-zero
accumulators (`np.zeros(num_steps)`), add each trajectory's records in
turn (`expvals[step] += evs`). -/
def ensembleSums (M : ℕ) (rec : ℕ → ℕ → ℝ) : ℕ → ℝ :=
  (List.range M).foldl (fun acc i => fun j => acc j + rec i j) (fun _ => 0)

/-- Ensemble-averaged expectation sequence: the per-step sums divided by
the trajectory count (`expvals /= num_trajectories`), materialized as the
length-N output sequence. -/
noncomputable def ensembleAverage (M N : ℕ) (rec : ℕ → ℕ → ℝ) : List ℝ :=
  (List.range N).map fun j => ensembleSums M rec j / (M : ℝ)

lemma ensembleSums_eq (M : ℕ) (rec : ℕ → ℕ → ℝ) (j : ℕ) :
    ensembleSums M rec j = ∑ i ∈ Finset.range M, rec i j := by
  induction M with
  | zero => simp [ensembleSums]
  | succ m ih =>
      unfold ensembleSums at ih ⊢
      rw [List.range_succ, List.foldl_append, Finset.sum_range_succ, ← ih]
      simp

/-- C4: for positive M and N the ensemble output is the elementwise
arithmetic mean of the M per-trajectory records — entry j is the sum of the
j-th recorded values over the M trajectories divided by M — and the output
sequence has length N. -/
theorem ensemble_average_is_mean (M N : ℕ) (hM : 0 < M) (hN : 0 < N)
    (rec : ℕ → ℕ → ℝ) :
    (ensembleAverage M N rec).length = N ∧
      ∀ j, j < N → (ensembleAverage M N rec).getD j 0 =
        (∑ i ∈ Finset.range M, rec i j) / (M : ℝ) := by
  constructor
  · simp [ensembleAverage]
  · intro j hj
    unfold ensembleAverage
    rw [List.getD_eq_getElem?_getD, List.getElem?_map, List.getElem?_range hj]
    simp [ensembleSums_eq]

/-- Witness for C4 at M = N = 1 with the zero record family. -/
theorem ensemble_average_is_mean_witness :
    (0 < 1 ∧ 0 < 1) ∧
      (ensembleAverage 1 1 (fun _ _ => (0 : ℝ))).length = 1 ∧
      (ensembleAverage 1 1 (fun _ _ => (0 : ℝ))).getD 0 0 =
        (∑ i ∈ Finset.range 1, (fun _ _ => (0 : ℝ)) i 0) / (1 : ℝ) := by
  have h := ensemble_average_is_mean 1 1 (by norm_num) (by norm_num)
    (fun _ _ => (0 : ℝ))
  exact ⟨⟨by norm_num, by norm_num⟩, h.1, by simpa using h.2 0 (by norm_num)⟩

/-- Modelled from the spec: a seeded pseudo-random source (the notebook
draws randomness from the unseeded Aer backend; the spec requires an
injected, explicitly seeded source). One 32-bit linear congruential step. -/
def lcgNext (s : ℕ) : ℕ := (1664525 * s + 1013904223) % 4294967296

/-- The t-th raw generator state for a given seed. -/
def lcgState (seed : ℕ) : ℕ → ℕ
  | 0 => lcgNext seed
  | (t + 1) => lcgNext (lcgState seed t)

/-- The t-th uniform draw in [0,1) of the seeded source. -/
noncomputable def uniformDraw (seed : ℕ) (t : ℕ) : ℝ :=
  (lcgState seed t : ℝ) / 4294967296

/-- Modelled from the spec: the whole engine — M trajectories, each run by
the trajectory runner with the random stream of its own seed, reduced to
the ensemble-averaged length-N output sequence. -/
noncomputable def engineRun (n : ℕ) (H : Matrix (Fin (2 ^ n)) (Fin (2 ^ n)) ℂ)
    (dt : ℝ) (k : Fin n) (b0 : Fin (2 ^ n)) (N M : ℕ) (seeds : ℕ → ℕ) : List ℝ :=
  ensembleAverage M N fun i j =>
    (runTrajectory n H (propagator H dt) k (uniformDraw (seeds i)) N
      (basisState n b0)).1.getD j 0

/-- C8: two engine runs with identical configuration and identical
per-trajectory seeds produce identical output sequences. -/
theorem engine_deterministic (n : ℕ) (H : Matrix (Fin (2 ^ n)) (Fin (2 ^ n)) ℂ)
    (dt : ℝ) (k : Fin n) (b0 : Fin (2 ^ n)) (N M : ℕ) (seeds1 seeds2 : ℕ → ℕ)
    (h : seeds1 = seeds2) :
    engineRun n H dt k b0 N M seeds1 = engineRun n H dt k b0 N M seeds2 := by
  rw [h]

/-- Witness for C8: the concrete open-chain configuration run twice with
the same seed assignment. -/
theorem engine_deterministic_witness :
    ((fun _ : ℕ => 42) = (fun _ : ℕ => 42)) ∧
      engineRun 3 hamOpen 0.5 2 0 1 1 (fun _ => 42) =
        engineRun 3 hamOpen 0.5 2 0 1 1 (fun _ => 42) :=
  ⟨rfl,
    engine_deterministic 3 hamOpen 0.5 2 0 1 1 (fun _ => 42) (fun _ => 42) rfl⟩

/-- The expectation of any observable on a computational basis state is the
corresponding diagonal entry. -/
lemma basis_expectation (n : ℕ) (H : Matrix (Fin (2 ^ n)) (Fin (2 ^ n)) ℂ)
    (b : Fin (2 ^ n)) :
    star (basisState n b) ⬝ᵥ H.mulVec (basisState n b) = H b b := by
  have hv : H.mulVec (basisState n b) = fun i => H i b := by
    funext i
    unfold basisState Matrix.mulVec
    rw [dotProduct]
    simp [mul_ite]
  rw [hv, dotProduct]
  unfold basisState
  simp [apply_ite, ite_mul]

/-- Hand check of the C3 reference value: ⟨000|H|000⟩ = -1 for the
open-chain Hamiltonian. -/
lemma hamOpen_basis_expectation :
    star (basisState 3 0) ⬝ᵥ hamOpen.mulVec (basisState 3 0) = -1 := by
  rw [basis_expectation]
  have hX0 : labelSites 3 "XXI".toList 0 = Pauli.I := by decide
  have hX1 : labelSites 3 "XXI".toList 1 = Pauli.X := by decide
  have hX2 : labelSites 3 "XXI".toList 2 = Pauli.X := by decide
  have hZ0 : labelSites 3 "IZZ".toList 0 = Pauli.Z := by decide
  have hZ1 : labelSites 3 "IZZ".toList 1 = Pauli.Z := by decide
  have hZ2 : labelSites 3 "IZZ".toList 2 = Pauli.I := by decide
  have hbit : ∀ m : ℕ, Nat.testBit ((0 : Fin (2 ^ 3)) : ℕ) m = false := by
    intro m
    simp
  have ht1 : termMatrix 3 (labelSites 3 "XXI".toList) 0 0 = 0 := by
    unfold termMatrix
    rw [Matrix.of_apply, Fin.prod_univ_three, hX0, hX1, hX2]
    rw [hbit, hbit, hbit]
    simp [pauliEntry]
  have ht2 : termMatrix 3 (labelSites 3 "IZZ".toList) 0 0 = 1 := by
    unfold termMatrix
    rw [Matrix.of_apply, Fin.prod_univ_three, hZ0, hZ1, hZ2]
    rw [hbit, hbit, hbit]
    simp [pauliEntry]
  unfold hamOpen hamMatrix openTerms J1open J2open
  simp only [List.map_cons, List.map_nil, List.sum_cons, List.sum_nil, add_zero,
    Matrix.add_apply, Matrix.smul_apply, ht1, ht2]
  norm_num

/-- Witness for C9: the degenerate-failure characterization instantiated at
the concrete measurement of |000⟩ at site 2 with draw 1/2. -/
theorem measure_degenerate_iff_witness :
    measureSite 3 2 (basisState 3 0) (1 / 2) = Except.error MeasError.degenerate ↔
      selectedProb 3 2 (basisState 3 0) (1 / 2) < measFloor :=
  (measure_degenerate_iff 3 2 (basisState 3 0) (1 / 2)).1
